import Mathlib

/-!
Verification of the text-normalization pipeline.

A shallow embedding of `utils/text_preprocessing.py`: strings are lists of
characters, each regex-substitution pass is translated into an executable
scanning function with the exact left-to-right, non-overlapping semantics of
Python's `re.sub`, and the date pass returns `Except` to model the
`ValueError` that `datetime.strptime` raises on a malformed token.  The
scanning functions take a fuel argument bounding the number of scan steps;
every wrapper passes the input length, which always suffices because each
step consumes at least one character.
-/

namespace TextPreprocessing

/-- Python's word character class (`\w`) on the ASCII range: letters, digits
and the underscore.  Every string reaching the matchers below has already
been folded to ASCII by the first pipeline pass, so the ASCII case is the
operative one. -/
def isWordChar (c : Char) : Bool := c.isAlphanum || c = '_'

/-- Python's whitespace class on the ASCII range: the set matched by `\s` and
stripped by `str.strip`, namely codepoints 9-13, 28-31 and 32. -/
def isPySpace (c : Char) : Bool :=
  (9 ≤ c.toNat && c.toNat ≤ 13) || (28 ≤ c.toNat && c.toNat ≤ 31) || c.toNat = 32

/-- Modelled from the spec: `convert_to_ascii` calls the external `unidecode`
library, whose source is not part of this repository.  Per the spec's §4.1
contract, ASCII characters pass through unchanged and non-ASCII characters
are transliterated to an ASCII sequence, possibly empty (dropped).  The
branches list the library's transliterations for the non-ASCII characters
appearing in the spec's examples; remaining non-ASCII characters are
dropped. -/
def unidecodeChar (c : Char) : List Char :=
  if c.toNat < 128 then [c]
  else if c = '“' || c = '”' then ['"']
  else if c = '‘' || c = '’' then ['\'']
  else if c = 'é' then ['e']
  else if c = 'Å' then ['A']
  else if c = 'å' then ['a']
  else []

/-- The pass `convert_to_ascii(text)`: transliterate every character. -/
def convert_to_ascii (l : List Char) : List Char :=
  (l.map unidecodeChar).flatten

/-- Case-insensitive literal match at the head of the text: each text
character lowercases to the corresponding character of the (lowercase)
pattern.  This is `re.IGNORECASE` matching for the purely alphabetic
patterns of the abbreviation table. -/
def lcMatch : List Char → List Char → Bool
  | [], _ => true
  | _ :: _, [] => false
  | p :: ps, c :: cs => (c.toLower == p) && lcMatch ps cs

/-- One `re.sub` scan for an abbreviation pattern `\b<abbr>\.?` with `re.IGNORECASE`
(the shape compiled in `_abbreviations`): scan left to right; at a position
preceded by a non-word character or the start of the string (tracked by `b`),
a case-insensitive occurrence of the abbreviation plus one optional trailing
period is replaced by `rep`, and scanning resumes after the consumed text.
The pattern ends with an optional period and has no trailing `\b`, so no
condition is placed on the character following the match.  After a match the
previous character is either the period (a non-word character) or the last
letter of the abbreviation (a word character), which fixes the boundary flag
for the continuation. -/
def subAbbrF (p rep : List Char) : Nat → Bool → List Char → List Char
  | 0, _, l => l
  | _ + 1, _, [] => []
  | fuel + 1, b, c :: rest =>
    if b && !p.isEmpty && lcMatch p (c :: rest) then
      let tl := (c :: rest).drop p.length
      if tl.head? = some '.' then rep ++ subAbbrF p rep fuel true tl.tail
      else rep ++ subAbbrF p rep fuel false tl
    else c :: subAbbrF p rep fuel (!(isWordChar c)) rest

/-- The abbreviation table `_abbreviations`, in source order. -/
def abbreviationTable : List (String × String) :=
  [("mrs", "misses"), ("mr", "mister"), ("dr", "doctor"), ("st", "street"),
   ("rd", "road"), ("co", "company"), ("jr", "junior"), ("maj", "major"),
   ("gen", "general"), ("drs", "doctors"), ("rev", "reverend"),
   ("lt", "lieutenant"), ("hon", "honorable"), ("sgt", "sergeant"),
   ("capt", "captain"), ("esq", "esquire"), ("ltd", "limited"),
   ("col", "colonel"), ("ft", "fort")]

/-- The pass `expand_abbreviations(text)`: apply the table entries top to bottom, one
full `re.sub` scan per entry, without re-scanning a replacement within the
same entry's scan. -/
def expand_abbreviations (l : List Char) : List Char :=
  abbreviationTable.foldl (fun t pr => subAbbrF pr.1.toList pr.2.toList t.length true t) l

/-- The pass `normalize_numbers(text)`, i.e. `re.sub` of the digit-comma-digit pattern
replaced by the two captured digits: non-overlapping left-to-right matches;
scanning resumes after each match. -/
def normalize_numbers : List Char → List Char
  | a :: b :: c :: rest =>
    if a.isDigit && b == ',' && c.isDigit then a :: c :: normalize_numbers rest
    else a :: normalize_numbers (b :: c :: rest)
  | l => l

/-- Greedy `\d{1,n}`: take up to `n` leading digits; also return the
remainder.  Nothing mandatory follows this group in the currency pattern, so
the greedy choice never backtracks. -/
def takeDigitsUpTo : Nat → List Char → List Char × List Char
  | 0, l => ([], l)
  | _ + 1, [] => ([], [])
  | n + 1, c :: rest =>
    if c.isDigit then
      let p := takeDigitsUpTo n rest
      (c :: p.1, p.2)
    else ([], c :: rest)

/-- Greedy repetition of the comma-plus-three-digits group of the currency
pattern; also returns the remainder. -/
def takeCommaGroups : List Char → List Char × List Char
  | ',' :: a :: b :: c :: rest =>
    if a.isDigit && b.isDigit && c.isDigit then
      let p := takeCommaGroups rest
      (',' :: a :: b :: c :: p.1, p.2)
    else ([], ',' :: a :: b :: c :: rest)
  | l => ([], l)

/-- Greedy optional fraction group of the currency pattern: a period followed
by at least one digit, taking all following digits; also returns the
remainder. -/
def takeFracPart : List Char → List Char × List Char
  | '.' :: c :: rest =>
    if c.isDigit then ('.' :: c :: rest.takeWhile Char.isDigit, rest.dropWhile Char.isDigit)
    else ([], '.' :: c :: rest)
  | l => ([], l)

/-- The pass `normalize_currency(text)`: `re.sub` of the pattern dollar-sign followed
by capture group 1 — one-to-three digits, then comma-plus-three-digit groups,
then an optional fraction — where the whole match is replaced by group 1,
i.e. the number without the dollar sign, with its commas removed. -/
def currencyF : Nat → List Char → List Char
  | 0, l => l
  | _ + 1, [] => []
  | fuel + 1, c :: rest =>
    if c = '$' then
      let p := takeDigitsUpTo 3 rest
      if p.1.isEmpty then '$' :: currencyF fuel rest
      else
        let g := takeCommaGroups p.2
        let f := takeFracPart g.2
        (p.1 ++ g.1 ++ f.1).filter (fun x => x != ',') ++ currencyF fuel f.2
    else c :: currencyF fuel rest

/-- The pass `normalize_currency(text)` at its call interface. -/
def normalize_currency (l : List Char) : List Char := currencyF l.length l

/-- Full month name, as produced by `strftime("%B", ...)`. -/
def monthName : Nat → List Char
  | 1 => "January".toList
  | 2 => "February".toList
  | 3 => "March".toList
  | 4 => "April".toList
  | 5 => "May".toList
  | 6 => "June".toList
  | 7 => "July".toList
  | 8 => "August".toList
  | 9 => "September".toList
  | 10 => "October".toList
  | 11 => "November".toList
  | 12 => "December".toList
  | _ => []

/-- The decimal digit character for `k mod 10`. -/
def digitChar (k : Nat) : Char :=
  match k % 10 with
  | 0 => '0' | 1 => '1' | 2 => '2' | 3 => '3' | 4 => '4'
  | 5 => '5' | 6 => '6' | 7 => '7' | 8 => '8' | _ => '9'

/-- Zero-padded two-digit rendering, as produced by `strftime("%d", ...)`. -/
def twoDigitChars (n : Nat) : List Char :=
  [digitChar (n / 10 % 10), digitChar (n % 10)]

/-- Decimal rendering of a natural number (fuelled division loop). -/
def natCharsF : Nat → Nat → List Char
  | 0, _ => []
  | fuel + 1, n =>
    if n < 10 then [digitChar n]
    else natCharsF fuel (n / 10) ++ [digitChar (n % 10)]

/-- Decimal rendering of a natural number, as produced by
`strftime("%Y", ...)` for the four-digit years arising here. -/
def natChars (n : Nat) : List Char := natCharsF (n + 1) n

/-- The two-digit-year pivot applied by `strptime`'s `%y`: values 00-68 map
to 2000-2068 and values 69-99 map to 1969-1999. -/
def pivotYear (y : Nat) : Nat := if y ≤ 68 then 2000 + y else 1900 + y

/-- Gregorian leap-year rule, as used by `datetime`'s calendar validation. -/
def isLeapYear (y : Nat) : Bool := y % 4 == 0 && (y % 100 != 0 || y % 400 == 0)

/-- Number of days of month `m` in year `y`, as used by `datetime`'s
calendar validation. -/
def daysInMonth (m y : Nat) : Nat :=
  if m = 2 then (if isLeapYear y then 29 else 28)
  else if m = 4 || m = 6 || m = 9 || m = 11 then 30
  else 31

/-- Numeric value of an ASCII digit character. -/
def charDigitVal (c : Char) : Nat := c.toNat - 48

/-- The error raised by `datetime.strptime` on a matched date token it cannot
parse (a `ValueError`, which `normalize_dates` lets propagate; the spec calls
it `InvalidDateError`). -/
structure InvalidDateError where
  token : List Char
deriving DecidableEq

instance {ε α : Type} [DecidableEq ε] [DecidableEq α] : DecidableEq (Except ε α)
  | .ok a, .ok b =>
    if h : a = b then .isTrue (by rw [h]) else
      .isFalse (fun hc => h (by cases hc; rfl))
  | .error a, .error b =>
    if h : a = b then .isTrue (by rw [h]) else
      .isFalse (fun hc => h (by cases hc; rfl))
  | .ok _, .error _ => .isFalse (fun hc => Except.noConfusion hc)
  | .error _, .ok _ => .isFalse (fun hc => Except.noConfusion hc)

/-- The helper `replace_date` applied to an eight-character matched token:
`datetime.strptime(tok, "%m/%d/%y")` followed by
`strftime("%B %d, %Y")`.  Parsing succeeds only when both delimiters are `/`
(the format string contains slashes only) and month, day and two-digit year
form a valid calendar date after the `%y` century pivot; otherwise the
`ValueError` propagates. -/
def replaceDate (c1 c2 s1 c3 c4 s2 c5 c6 : Char) : Except InvalidDateError (List Char) :=
  let m := 10 * charDigitVal c1 + charDigitVal c2
  let d := 10 * charDigitVal c3 + charDigitVal c4
  let y := 10 * charDigitVal c5 + charDigitVal c6
  if s1 = '/' ∧ s2 = '/' ∧ 1 ≤ m ∧ m ≤ 12 ∧ 1 ≤ d ∧ d ≤ daysInMonth m (pivotYear y) then
    .ok (monthName m ++ ' ' :: (twoDigitChars d ++ ',' :: ' ' :: natChars (pivotYear y)))
  else .error ⟨[c1, c2, s1, c3, c4, s2, c5, c6]⟩

/-- A delimiter of the date pattern's slash-or-dash character class. -/
def isDelim (c : Char) : Bool := c == '/' || c == '-'

/-- The substitution of `normalize_dates`: the pattern is word boundary, two
digits, a delimiter (slash or dash), two digits, a delimiter, two digits,
word boundary, and each match is rewritten by `replace_date`.  Scan left to
right with the flag `b` recording whether the previous character was a
non-word character or the start; at a boundary, an eight-character token of
the date shape whose following character is absent or non-word is handed to
`replace_date`, whose `ValueError` aborts the whole substitution.  Scanning
resumes after the consumed token (its last character is a digit, so the
continuation starts with the flag down).  `dateHead` recognizes the
eight-character token of the date shape, together with its trailing word
boundary, at the head of the text. -/
def dateHead : List Char →
    Option ((Char × Char × Char × Char × Char × Char × Char × Char) × List Char)
  | c1 :: c2 :: s1 :: c3 :: c4 :: s2 :: c5 :: c6 :: rest =>
    if c1.isDigit && c2.isDigit && isDelim s1 && c3.isDigit && c4.isDigit
        && isDelim s2 && c5.isDigit && c6.isDigit
        && (match rest with | [] => true | d :: _ => !(isWordChar d)) then
      some ((c1, c2, s1, c3, c4, s2, c5, c6), rest)
    else none
  | _ => none

def replaceDate8 (t8 : Char × Char × Char × Char × Char × Char × Char × Char) :
    Except InvalidDateError (List Char) :=
  replaceDate t8.1 t8.2.1 t8.2.2.1 t8.2.2.2.1 t8.2.2.2.2.1 t8.2.2.2.2.2.1
    t8.2.2.2.2.2.2.1 t8.2.2.2.2.2.2.2

def subDatesF : Nat → Bool → List Char → Except InvalidDateError (List Char)
  | 0, _, l => .ok l
  | _ + 1, _, [] => .ok []
  | fuel + 1, b, c :: rest =>
    match dateHead (c :: rest), b with
    | some (t8, rest'), true =>
      (replaceDate8 t8).bind (fun rep => (subDatesF fuel false rest').map (fun t => rep ++ t))
    | _, _ => (subDatesF fuel (!(isWordChar c)) rest).map (fun t => c :: t)

/-- The pass `normalize_dates(text)`: the date substitution starting at the beginning
of the string (a word boundary). -/
def normalize_dates (l : List Char) : Except InvalidDateError (List Char) :=
  subDatesF l.length true l

/-- The pass `normalize_quotes(text)`: the four chained `str.replace` calls mapping
each typographic double quote to a straight double quote and each
typographic single quote to a straight apostrophe.  The four replaced
characters are distinct and no replacement character is itself replaced
later, so the chain acts characterwise. -/
def normalize_quotes (l : List Char) : List Char :=
  l.map fun c =>
    if c = '“' || c = '”' then '"'
    else if c = '‘' || c = '’' then '\'' else c

/-- The pass `collapse_whitespace(text)`: each maximal run of whitespace becomes a
single space. -/
def collapseF : Nat → List Char → List Char
  | 0, l => l
  | _ + 1, [] => []
  | fuel + 1, c :: rest =>
    if isPySpace c then ' ' :: collapseF fuel (rest.dropWhile isPySpace)
    else c :: collapseF fuel rest

/-- The pass `collapse_whitespace(text)` at its call interface. -/
def collapse_whitespace (l : List Char) : List Char := collapseF l.length l

/-- Python `str.strip()`: remove leading and trailing whitespace. -/
def pyStrip (l : List Char) : List Char :=
  ((l.dropWhile isPySpace).reverse.dropWhile isPySpace).reverse

/-- The pipeline `preprocess_text(text)`: the full pipeline in source order — ASCII
folding, abbreviation expansion, digit-group comma removal, currency
normalization, date normalization (whose error propagates), quote
normalization, whitespace collapsing, and a final strip. -/
def preprocess_text (s : String) : Except InvalidDateError String :=
  match normalize_dates (normalize_currency (normalize_numbers
      (expand_abbreviations (convert_to_ascii s.toList)))) with
  | .ok t => .ok (String.mk (pyStrip (collapse_whitespace (normalize_quotes t))))
  | .error e => .error e

/-- The pipeline of `preprocess_text` with the quote-normalization step
removed, for comparison with the full pipeline. -/
def preprocess_text_noquotes (s : String) : Except InvalidDateError String :=
  match normalize_dates (normalize_currency (normalize_numbers
      (expand_abbreviations (convert_to_ascii s.toList)))) with
  | .ok t => .ok (String.mk (pyStrip (collapse_whitespace t)))
  | .error e => .error e

/-- A digit-comma-digit occurrence: some comma sits directly between two
digit characters. -/
def hasDCD : List Char → Bool
  | a :: b :: c :: rest => (a.isDigit && b == ',' && c.isDigit) || hasDCD (b :: c :: rest)
  | _ => false

/-- Two overlapping digit-comma-digit occurrences: a digit, a comma, a digit,
a comma and a digit in five consecutive positions. -/
def hasDCDCD : List Char → Bool
  | a :: b :: c :: d :: e :: rest =>
    (a.isDigit && b == ',' && c.isDigit && d == ',' && e.isDigit)
      || hasDCDCD (b :: c :: d :: e :: rest)
  | _ => false

/-! Section: ASCII range facts -/

/-- Every character lies in the ASCII range. -/
def allAscii (l : List Char) : Prop := ∀ c ∈ l, c.toNat < 128

instance (l : List Char) : Decidable (allAscii l) := by
  unfold allAscii
  infer_instance

/-- The normal-form subset described by the spec's §8: every pipeline pass
maps the string to itself (ASCII characters only, no abbreviation match, no
grouped digits, no currency match, no date token, already-collapsed
whitespace, no leading or trailing whitespace). -/
def NormalForm (t : String) : Prop :=
  allAscii t.data ∧ expand_abbreviations t.data = t.data ∧
    normalize_numbers t.data = t.data ∧ normalize_currency t.data = t.data ∧
    normalize_dates t.data = .ok t.data ∧ collapse_whitespace t.data = t.data ∧
    pyStrip t.data = t.data

instance (t : String) : Decidable (NormalForm t) := by
  unfold NormalForm
  infer_instance

/-- The eight-character slash-delimited date token `MM/DD/YY` for two-digit
month, day and year values. -/
def dateTok (m d y : Nat) : List Char :=
  twoDigitChars m ++ '/' :: (twoDigitChars d ++ '/' :: twoDigitChars y)

theorem unidecodeChar_ascii (c : Char) : allAscii (unidecodeChar c) := by
  intro x hx
  by_cases h1 : c.toNat < 128
  · rw [unidecodeChar, if_pos h1] at hx
    simp at hx
    subst hx
    exact h1
  · rw [unidecodeChar, if_neg h1] at hx
    split at hx
    · simp at hx; subst hx; decide
    · split at hx
      · simp at hx; subst hx; decide
      · split at hx
        · simp at hx; subst hx; decide
        · split at hx
          · simp at hx; subst hx; decide
          · split at hx
            · simp at hx; subst hx; decide
            · simp at hx

theorem convert_to_ascii_ascii (l : List Char) : allAscii (convert_to_ascii l) := by
  intro x hx
  unfold convert_to_ascii at hx
  rw [List.mem_flatten] at hx
  obtain ⟨L, hL, hxL⟩ := hx
  rw [List.mem_map] at hL
  obtain ⟨c, _, rfl⟩ := hL
  exact unidecodeChar_ascii c x hxL

theorem unidecodeChar_of_ascii {c : Char} (h : c.toNat < 128) : unidecodeChar c = [c] := by
  rw [unidecodeChar, if_pos h]

/-- ASCII folding is the identity on strings that are already ASCII. -/
theorem convert_to_ascii_of_ascii {l : List Char} (h : allAscii l) :
    convert_to_ascii l = l := by
  induction l with
  | nil => rfl
  | cons c rest ih =>
    have hc : c.toNat < 128 := h c (List.mem_cons_self c rest)
    have hrest : allAscii rest := fun x hx => h x (List.mem_cons_of_mem c hx)
    simp only [convert_to_ascii, List.map_cons, List.flatten_cons] at *
    rw [unidecodeChar_of_ascii hc, ih hrest, List.singleton_append]

theorem subAbbrF_ascii (p rep : List Char) (hrep : allAscii rep) :
    ∀ (fuel : Nat) (b : Bool) (l : List Char), allAscii l →
      allAscii (subAbbrF p rep fuel b l) := by
  intro fuel
  induction fuel with
  | zero => intro b l h; exact h
  | succ fuel ih =>
    intro b l h
    match l with
    | [] => intro x hx; simp [subAbbrF] at hx
    | c :: rest =>
      have hdrop : allAscii ((c :: rest).drop p.length) :=
        fun y hy => h y (List.drop_subset p.length (c :: rest) hy)
      simp only [subAbbrF]
      split
      · split
        · intro x hx
          rcases List.mem_append.mp hx with h1 | h2
          · exact hrep x h1
          · exact ih true _ (fun y hy => hdrop y (List.mem_of_mem_tail hy)) x h2
        · intro x hx
          rcases List.mem_append.mp hx with h1 | h2
          · exact hrep x h1
          · exact ih false _ hdrop x h2
      · intro x hx
        rcases List.mem_cons.mp hx with h1 | h2
        · exact h x (by rw [h1]; exact List.mem_cons_self c rest)
        · exact ih (!(isWordChar c)) rest
            (fun y hy => h y (List.mem_cons_of_mem c hy)) x h2

theorem expand_abbreviations_ascii {l : List Char} (h : allAscii l) :
    allAscii (expand_abbreviations l) := by
  unfold expand_abbreviations
  have : ∀ (tbl : List (String × String)), (∀ pr ∈ tbl, allAscii pr.2.toList) →
      ∀ (t : List Char), allAscii t →
        allAscii (tbl.foldl (fun t pr => subAbbrF pr.1.toList pr.2.toList t.length true t) t) := by
    intro tbl
    induction tbl with
    | nil => intro _ t ht; exact ht
    | cons pr tl ih =>
      intro hpr t ht
      rw [List.foldl_cons]
      exact ih (fun q hq => hpr q (List.mem_cons_of_mem pr hq))
        _ (subAbbrF_ascii pr.1.toList pr.2.toList (hpr pr (List.mem_cons_self pr tl))
          t.length true t ht)
  refine this abbreviationTable ?_ l h
  intro pr hpr
  fin_cases hpr <;> decide

theorem normalize_numbers_subset : ∀ (l : List Char), normalize_numbers l ⊆ l
  | [] => by simp [normalize_numbers]
  | [a] => by simp [normalize_numbers]
  | [a, b] => by simp [normalize_numbers]
  | a :: b :: c :: rest => by
    rw [normalize_numbers]
    split
    · intro x hx
      rcases List.mem_cons.mp hx with h1 | hx
      · simp [h1]
      rcases List.mem_cons.mp hx with h1 | hx
      · simp [h1]
      · have := normalize_numbers_subset rest hx
        simp only [List.mem_cons]
        tauto
    · intro x hx
      rcases List.mem_cons.mp hx with h1 | hx
      · simp [h1]
      · exact List.mem_cons_of_mem a (normalize_numbers_subset (b :: c :: rest) hx)

theorem normalize_numbers_ascii {l : List Char} (h : allAscii l) :
    allAscii (normalize_numbers l) :=
  fun x hx => h x (normalize_numbers_subset l hx)

theorem takeDigitsUpTo_append : ∀ (n : Nat) (l : List Char),
    (takeDigitsUpTo n l).1 ++ (takeDigitsUpTo n l).2 = l
  | 0, _ => rfl
  | _ + 1, [] => rfl
  | n + 1, c :: rest => by
    by_cases hc : c.isDigit
    · simp [takeDigitsUpTo, hc, takeDigitsUpTo_append n rest]
    · simp [takeDigitsUpTo, hc]

theorem takeCommaGroups_append : ∀ (l : List Char),
    (takeCommaGroups l).1 ++ (takeCommaGroups l).2 = l := by
  intro l
  induction l using takeCommaGroups.induct with
  | case1 a b c rest h ih => simp [takeCommaGroups, h, ih]
  | case2 a b c rest h => simp [takeCommaGroups, h]
  | case3 l h =>
    rw [takeCommaGroups.eq_def]
    split
    · next a b c rest => exact (h a b c rest rfl).elim
    · simp

theorem takeFracPart_append (l : List Char) :
    (takeFracPart l).1 ++ (takeFracPart l).2 = l := by
  rw [takeFracPart.eq_def]
  split
  · next c rest =>
    by_cases hc : c.isDigit <;> simp [hc, List.takeWhile_append_dropWhile]
  · simp

theorem currencyF_subset : ∀ (fuel : Nat) (l : List Char), currencyF fuel l ⊆ l := by
  intro fuel
  induction fuel with
  | zero => intro l x hx; exact hx
  | succ fuel ih =>
    intro l
    match l with
    | [] => simp [currencyF]
    | c :: rest =>
      have hd := takeDigitsUpTo_append 3 rest
      have hg := takeCommaGroups_append (takeDigitsUpTo 3 rest).2
      have hf := takeFracPart_append (takeCommaGroups (takeDigitsUpTo 3 rest).2).2
      have hfrest : (takeFracPart (takeCommaGroups (takeDigitsUpTo 3 rest).2).2).2 ⊆ rest := by
        intro y hy
        rw [← hd]
        refine List.mem_append_right _ ?_
        rw [← hg]
        refine List.mem_append_right _ ?_
        rw [← hf]
        exact List.mem_append_right _ hy
      simp only [currencyF]
      split
      · next hc =>
        split
        · intro x hx
          rcases List.mem_cons.mp hx with h1 | hx
          · subst h1; rw [hc]; exact List.mem_cons_self '$' rest
          · exact List.mem_cons_of_mem c (ih rest hx)
        · intro x hx
          rcases List.mem_append.mp hx with h1 | h2
          · refine List.mem_cons_of_mem c ?_
            have hx1 := (List.mem_filter.mp h1).1
            rw [← hd]
            rcases List.mem_append.mp hx1 with hm | hm
            · rcases List.mem_append.mp hm with hm1 | hm1
              · exact List.mem_append_left _ hm1
              · refine List.mem_append_right _ ?_
                rw [← hg]
                exact List.mem_append_left _ hm1
            · refine List.mem_append_right _ ?_
              rw [← hg]
              refine List.mem_append_right _ ?_
              rw [← hf]
              exact List.mem_append_left _ hm
          · exact List.mem_cons_of_mem c (hfrest (ih _ h2))
      · intro x hx
        rcases List.mem_cons.mp hx with h1 | hx
        · simp [h1]
        · exact List.mem_cons_of_mem c (ih rest hx)

theorem normalize_currency_ascii {l : List Char} (h : allAscii l) :
    allAscii (normalize_currency l) :=
  fun x hx => h x (currencyF_subset l.length l hx)

theorem monthName_ascii (m : Nat) : allAscii (monthName m) := by
  rw [monthName.eq_def]
  split <;> decide

theorem digitChar_ascii (k : Nat) : (digitChar k).toNat < 128 := by
  unfold digitChar
  have h : k % 10 < 10 := Nat.mod_lt _ (by omega)
  generalize k % 10 = m at h ⊢
  interval_cases m <;> decide

theorem natCharsF_ascii (fuel n : Nat) : allAscii (natCharsF fuel n) := by
  induction fuel generalizing n with
  | zero => intro x hx; simp [natCharsF] at hx
  | succ fuel ih =>
    intro x hx
    rw [natCharsF] at hx
    split at hx
    · simp at hx; subst hx; exact digitChar_ascii n
    · rcases List.mem_append.mp hx with h1 | h2
      · exact ih (n / 10) x h1
      · simp at h2; subst h2; exact digitChar_ascii (n % 10)

theorem twoDigitChars_ascii (n : Nat) : allAscii (twoDigitChars n) := by
  intro x hx
  fin_cases hx <;> exact digitChar_ascii _

theorem replaceDate_ascii {c1 c2 s1 c3 c4 s2 c5 c6 : Char} {rep : List Char}
    (h : replaceDate c1 c2 s1 c3 c4 s2 c5 c6 = .ok rep) : allAscii rep := by
  simp only [replaceDate] at h
  split at h
  · have h' := Except.ok.inj h
    subst h'
    intro x hx
    rcases List.mem_append.mp hx with h1 | hx
    · exact monthName_ascii _ x h1
    rcases List.mem_cons.mp hx with h1 | hx
    · subst h1; decide
    rcases List.mem_append.mp hx with h1 | hx
    · exact twoDigitChars_ascii _ x h1
    rcases List.mem_cons.mp hx with h1 | hx
    · subst h1; decide
    rcases List.mem_cons.mp hx with h1 | hx
    · subst h1; decide
    · exact natCharsF_ascii _ _ x hx
  · exact absurd h (by simp)

theorem except_map_eq_ok {a b e : Type} {f : a → b} {x : Except e a} {t : b}
    (h : x.map f = .ok t) : ∃ v, x = .ok v ∧ t = f v := by
  cases x with
  | ok v =>
    refine ⟨v, rfl, ?_⟩
    simpa [Except.map] using h.symm
  | error err => simp [Except.map] at h

theorem dateHead_eq_some {l rest' : List Char}
    {t8 : Char × Char × Char × Char × Char × Char × Char × Char}
    (h : dateHead l = some (t8, rest')) :
    l = t8.1 :: t8.2.1 :: t8.2.2.1 :: t8.2.2.2.1 :: t8.2.2.2.2.1 ::
      t8.2.2.2.2.2.1 :: t8.2.2.2.2.2.2.1 :: t8.2.2.2.2.2.2.2 :: rest' := by
  rw [dateHead.eq_def] at h
  split at h
  · split at h
    · cases h
      rfl
    · cases h
  · cases h

theorem except_bind_eq_ok {a b e : Type} {x : Except e a} {f : a → Except e b} {t : b}
    (h : x.bind f = .ok t) : ∃ v, x = .ok v ∧ f v = .ok t := by
  cases x with
  | ok v => exact ⟨v, rfl, h⟩
  | error err => simp [Except.bind] at h

theorem subDatesF_cons_match {fuel : Nat} {c : Char} {rest rest' : List Char}
    {t8 : Char × Char × Char × Char × Char × Char × Char × Char}
    (h : dateHead (c :: rest) = some (t8, rest')) :
    subDatesF (fuel + 1) true (c :: rest) =
      (replaceDate8 t8).bind
        (fun rep => (subDatesF fuel false rest').map (fun t => rep ++ t)) := by
  simp only [subDatesF, h]

theorem subDatesF_cons_noBdry {fuel : Nat} {c : Char} {rest rest' : List Char}
    {t8 : Char × Char × Char × Char × Char × Char × Char × Char}
    (h : dateHead (c :: rest) = some (t8, rest')) :
    subDatesF (fuel + 1) false (c :: rest) =
      (subDatesF fuel (!(isWordChar c)) rest).map (fun t => c :: t) := by
  simp only [subDatesF, h]

theorem subDatesF_cons_noMatch {fuel : Nat} {b : Bool} {c : Char} {rest : List Char}
    (h : dateHead (c :: rest) = none) :
    subDatesF (fuel + 1) b (c :: rest) =
      (subDatesF fuel (!(isWordChar c)) rest).map (fun t => c :: t) := by
  simp only [subDatesF, h]

theorem subDatesF_ascii : ∀ (fuel : Nat) (b : Bool) {l t : List Char}, allAscii l →
    subDatesF fuel b l = .ok t → allAscii t := by
  intro fuel
  induction fuel with
  | zero =>
    intro b l t h he
    rw [subDatesF] at he
    cases he
    exact h
  | succ fuel ih =>
    intro b l t h he
    match l with
    | [] =>
      rw [subDatesF] at he
      cases he
      intro x hx
      simp at hx
    | c :: rest =>
      have hrest : allAscii rest := fun y hy => h y (List.mem_cons_of_mem c hy)
      rcases hdh : dateHead (c :: rest) with _ | ⟨t8, rest'⟩
      · rw [subDatesF_cons_noMatch hdh] at he
        obtain ⟨v, hv, rfl⟩ := except_map_eq_ok he
        intro x hx
        rcases List.mem_cons.mp hx with h1 | h2
        · exact h x (by rw [h1]; exact List.mem_cons_self c rest)
        · exact ih (!(isWordChar c)) hrest hv x h2
      · have hshape := dateHead_eq_some hdh
        have hrest' : allAscii rest' := by
          intro y hy
          refine h y ?_
          rw [hshape]
          simp [hy]
        cases b with
        | true =>
          rw [subDatesF_cons_match hdh] at he
          obtain ⟨rep, hrep, he2⟩ := except_bind_eq_ok he
          obtain ⟨v, hv, rfl⟩ := except_map_eq_ok he2
          intro x hx
          rcases List.mem_append.mp hx with h1 | h2
          · exact replaceDate_ascii hrep x h1
          · exact ih false hrest' hv x h2
        | false =>
          rw [subDatesF_cons_noBdry hdh] at he
          obtain ⟨v, hv, rfl⟩ := except_map_eq_ok he
          intro x hx
          rcases List.mem_cons.mp hx with h1 | h2
          · exact h x (by rw [h1]; exact List.mem_cons_self c rest)
          · exact ih (!(isWordChar c)) hrest hv x h2

theorem normalize_quotes_ascii {l : List Char} (h : allAscii l) :
    allAscii (normalize_quotes l) := by
  intro x hx
  unfold normalize_quotes at hx
  rw [List.mem_map] at hx
  obtain ⟨c, hc, rfl⟩ := hx
  split
  · decide
  · split
    · decide
    · exact h c hc

/-- The quote pass is the identity on ASCII strings: the four typographic
quotes it replaces are non-ASCII characters. -/
theorem normalize_quotes_of_ascii {l : List Char} (h : allAscii l) :
    normalize_quotes l = l := by
  unfold normalize_quotes
  have : ∀ c ∈ l, (if c = '“' || c = '”' then '"'
      else if c = '‘' || c = '’' then '\'' else c) = c := by
    intro c hc
    have hc' := h c hc
    rw [if_neg, if_neg]
    · simp only [Bool.or_eq_true, decide_eq_true_eq]
      rintro (rfl | rfl) <;> simp at hc'
    · simp only [Bool.or_eq_true, decide_eq_true_eq]
      rintro (rfl | rfl) <;> simp at hc'
  rw [List.map_congr_left this]
  exact List.map_id' l

theorem collapseF_ascii : ∀ (fuel : Nat) {l : List Char}, allAscii l →
    allAscii (collapseF fuel l) := by
  intro fuel
  induction fuel with
  | zero => intro l h; exact h
  | succ fuel ih =>
    intro l h
    match l with
    | [] => intro x hx; simp [collapseF] at hx
    | c :: rest =>
      have hrest : allAscii rest := fun y hy => h y (List.mem_cons_of_mem c hy)
      rw [collapseF]
      split
      · intro x hx
        rcases List.mem_cons.mp hx with h1 | h2
        · subst h1; decide
        · exact ih (fun y hy => hrest y (List.dropWhile_subset _ hy)) x h2
      · intro x hx
        rcases List.mem_cons.mp hx with h1 | h2
        · exact h x (by rw [h1]; exact List.mem_cons_self c rest)
        · exact ih hrest x h2

theorem pyStrip_subset (l : List Char) : ∀ x ∈ pyStrip l, x ∈ l := by
  intro x hx
  unfold pyStrip at hx
  rw [List.mem_reverse] at hx
  have h1 := List.dropWhile_subset (l := (l.dropWhile isPySpace).reverse) isPySpace hx
  rw [List.mem_reverse] at h1
  exact List.dropWhile_subset isPySpace h1

theorem pyStrip_ascii {l : List Char} (h : allAscii l) : allAscii (pyStrip l) :=
  fun x hx => h x (pyStrip_subset l x hx)

/-! Section: Digit-comma facts (C6) -/

theorem digit_ne_comma {c : Char} (h : c.isDigit = true) : (c == ',') = false := by
  cases hbe : (c == ',') with
  | false => rfl
  | true =>
    have hc : c = ',' := eq_of_beq hbe
    rw [hc] at h
    exact absurd h (by decide)

theorem nn_head : ∀ (m : List Char), (normalize_numbers m).head? = m.head?
  | [] => rfl
  | [a] => rfl
  | [a, b] => rfl
  | a :: b :: c :: rest => by
    rw [normalize_numbers]
    split <;> rfl

theorem nn_cons_nondigit {a : Char} (h : a.isDigit = false) :
    ∀ (r : List Char), normalize_numbers (a :: r) = a :: normalize_numbers r
  | [] => rfl
  | [x] => rfl
  | x :: y :: r' => by
    rw [normalize_numbers]
    simp [h]

theorem hasDCDCD_tail {a : Char} {l : List Char} (h : hasDCDCD (a :: l) = false) :
    hasDCDCD l = false := by
  match l with
  | [] => rfl
  | [_] => rfl
  | [_, _] => rfl
  | [_, _, _] => rfl
  | b :: c :: d :: e :: r =>
    rw [hasDCDCD] at h
    exact (Bool.or_eq_false_iff.mp h).2

theorem head?_eq_some_ex {m : List Char} {x : Char} (h : m.head? = some x) :
    ∃ t, m = x :: t := by
  cases m with
  | nil => simp at h
  | cons y t =>
    simp only [List.head?_cons, Option.some.injEq] at h
    exact ⟨t, by rw [h]⟩

theorem normalize_numbers_noDCD : ∀ (l : List Char), hasDCDCD l = false →
    hasDCD (normalize_numbers l) = false
  | [] => fun _ => rfl
  | [a] => fun _ => rfl
  | [a, b] => fun _ => rfl
  | a :: b :: c :: rest => by
    intro h5
    have htail1 : hasDCDCD (b :: c :: rest) = false := hasDCDCD_tail h5
    have htail3 : hasDCDCD rest = false :=
      hasDCDCD_tail (hasDCDCD_tail htail1)
    rw [normalize_numbers]
    split
    · next hcond =>
      obtain ⟨⟨ha, hbcomma⟩, hcdig⟩ :
          (a.isDigit = true ∧ (b == ',') = true) ∧ c.isDigit = true := by
        simpa [Bool.and_eq_true] using hcond
      rcases rest with _ | ⟨x, r⟩
      · rfl
      · obtain ⟨w1, hw1⟩ := head?_eq_some_ex (m := normalize_numbers (x :: r)) (x := x)
          (by rw [nn_head]; rfl)
        rw [hw1]
        rcases hw2 : w1 with _ | ⟨z, w2⟩
        · rw [hasDCD]
          simp [digit_ne_comma hcdig, hasDCD]
        · rw [hasDCD, hasDCD, ← hw2, ← hw1]
          have hih : hasDCD (normalize_numbers (x :: r)) = false :=
            normalize_numbers_noDCD (x :: r) htail3
          rw [hih]
          simp only [Bool.or_false]
          by_cases hx : (x == ',') = true
          · have hxe : x = ',' := eq_of_beq hx
            have hnnr : normalize_numbers (x :: r) = x :: normalize_numbers r := by
              rw [hxe]
              exact nn_cons_nondigit (by decide) r
            have hw1eq : w1 = normalize_numbers r := by
              rw [hw1] at hnnr
              exact (List.cons.injEq _ _ _ _ ▸ hnnr).2
            by_cases hz : z.isDigit = true
            · exfalso
              obtain ⟨r1, hr1⟩ := head?_eq_some_ex (m := r) (x := z)
                (by rw [← nn_head, ← hw1eq, hw2]; rfl)
              rw [hr1, hasDCDCD] at h5
              simp [ha, hbcomma, hcdig, hx, hz] at h5
            · simp [hz, digit_ne_comma hcdig]
          · simp [hx, digit_ne_comma hcdig]
    · next hcond =>
      obtain ⟨w1, hw1⟩ := head?_eq_some_ex (m := normalize_numbers (b :: c :: rest)) (x := b)
        (by rw [nn_head]; rfl)
      rw [hw1]
      rcases hw2 : w1 with _ | ⟨y, w2⟩
      · simp [hasDCD]
      · rw [hasDCD, ← hw2, ← hw1]
        have hih : hasDCD (normalize_numbers (b :: c :: rest)) = false :=
          normalize_numbers_noDCD (b :: c :: rest) htail1
        rw [hih]
        simp only [Bool.or_false]
        by_cases hb : (b == ',') = true
        · have hbe : b = ',' := eq_of_beq hb
          have hnn2 : normalize_numbers (b :: c :: rest) = b :: normalize_numbers (c :: rest) := by
            rw [hbe]
            exact nn_cons_nondigit (by decide) (c :: rest)
          have hw1eq : w1 = normalize_numbers (c :: rest) := by
            rw [hw1] at hnn2
            exact (List.cons.injEq _ _ _ _ ▸ hnn2).2
          have hyc : y = c := by
            have hh := nn_head (c :: rest)
            rw [← hw1eq, hw2] at hh
            simp only [List.head?_cons, Option.some.injEq] at hh
            exact hh
          have hnd : a.isDigit = false ∨ c.isDigit = false := by
            by_cases ha : a.isDigit = true
            · by_cases hc : c.isDigit = true
              · exact absurd (by simp [ha, hb, hc]) hcond
              · exact Or.inr (Bool.eq_false_iff.mpr hc)
            · exact Or.inl (Bool.eq_false_iff.mpr ha)
          rcases hnd with hnd | hnd <;> simp [hnd, hyc]
        · simp [hb]

/-! Section: Pipeline-level facts -/

theorem preprocess_text_eq_ok {s t : String} (h : preprocess_text s = .ok t) :
    ∃ u, normalize_dates (normalize_currency (normalize_numbers
        (expand_abbreviations (convert_to_ascii s.toList)))) = .ok u ∧
      t.data = pyStrip (collapse_whitespace (normalize_quotes u)) := by
  unfold preprocess_text at h
  split at h
  · next u hu =>
    refine ⟨u, hu, ?_⟩
    cases h
    rfl
  · cases h

theorem pipeline_head_ascii (s : String) :
    allAscii (normalize_currency (normalize_numbers
      (expand_abbreviations (convert_to_ascii s.toList)))) :=
  normalize_currency_ascii (normalize_numbers_ascii
    (expand_abbreviations_ascii (convert_to_ascii_ascii s.toList)))

/-! Section: Claim theorems: C8, C9, C4 -/

/-- C8 (amended): for every input on which `preprocess_text` succeeds, every
character of the returned string lies in the ASCII range (codepoint below
128).  The original claim's stronger "printable" bound fails: non-printable
ASCII control characters that are not whitespace survive the pipeline, see
the counterexample. -/
theorem C8_amended_ascii_range : ∀ (s t : String), preprocess_text s = .ok t →
    ∀ c ∈ t.data, c.toNat < 128 := by
  intro s t h
  obtain ⟨u, hu, ht⟩ := preprocess_text_eq_ok h
  have hA : allAscii u := by
    rw [normalize_dates] at hu
    exact subDatesF_ascii _ true (pipeline_head_ascii s) hu
  rw [ht]
  exact pyStrip_ascii (collapseF_ascii _ (normalize_quotes_ascii hA))

/-- Witness for C8 (amended): the accented input is transliterated and the
resulting output is ASCII. -/
theorem C8_amended_ascii_range_witness :
    preprocess_text "é" = .ok "e" ∧ ∀ c ∈ ("e" : String).data, c.toNat < 128 :=
  ⟨by decide, C8_amended_ascii_range "é" "e" (by decide)⟩

/-- C8 (counterexample): the control character U+0001 is ASCII but not
printable, and it survives the pipeline unchanged, so the output is not
confined to the ASCII printable range. -/
theorem C8_counterexample :
    preprocess_text "\x01" = .ok "\x01" ∧
    ∃ c ∈ ("\x01" : String).data, ¬(32 ≤ c.toNat ∧ c.toNat ≤ 126) := by
  decide

/-- C9: the quote-normalization pass is the identity on ASCII strings, and
because ASCII folding is the first pass, removing the quote-normalization
step leaves `preprocess_text` extensionally unchanged (same output or same
error on every input). -/
theorem C9_quotes_redundant :
    (∀ l : List Char, allAscii l → normalize_quotes l = l) ∧
    (∀ s : String, preprocess_text_noquotes s = preprocess_text s) := by
  constructor
  · intro l h
    exact normalize_quotes_of_ascii h
  · intro s
    unfold preprocess_text preprocess_text_noquotes
    rcases hd : normalize_dates (normalize_currency (normalize_numbers
        (expand_abbreviations (convert_to_ascii s.toList)))) with e | u
    · simp only [hd]
    · have hA : allAscii u := by
        rw [normalize_dates] at hd
        exact subDatesF_ascii _ true (pipeline_head_ascii s) hd
      simp only [hd, normalize_quotes_of_ascii hA]

/-- Witness for C9: both conjuncts applied at concrete inputs. -/
theorem C9_quotes_redundant_witness :
    normalize_quotes "abc".toList = "abc".toList ∧
    preprocess_text_noquotes "a b" = preprocess_text "a b" :=
  ⟨C9_quotes_redundant.1 "abc".toList (by decide), C9_quotes_redundant.2 "a b"⟩

/-! Section: Whitespace invariants (C7) -/

theorem length_dropWhile_le (p : Char → Bool) (l : List Char) :
    (l.dropWhile p).length ≤ l.length := by
  have h := congrArg List.length (List.takeWhile_append_dropWhile p l)
  simp only [List.length_append] at h
  omega

theorem dropWhile_head_not (p : Char → Bool) (l : List Char) :
    ∀ c, (l.dropWhile p).head? = some c → p c = false := by
  intro c hc
  have h := List.head?_dropWhile_not p l
  rw [hc] at h
  exact h

theorem collapseF_head_not_space : ∀ (fuel : Nat) (l : List Char),
    (∀ c, l.head? = some c → isPySpace c = false) →
    ∀ c, (collapseF fuel l).head? = some c → isPySpace c = false := by
  intro fuel l h
  match fuel, l with
  | 0, l => exact h
  | fuel + 1, [] => intro c hc; simp [collapseF] at hc
  | fuel + 1, c0 :: rest =>
    intro c hc
    rw [collapseF] at hc
    split at hc
    · next hsp => exact absurd (h c0 rfl) (by simp [hsp])
    · next hsp =>
      simp only [List.head?_cons, Option.some.injEq] at hc
      subst hc
      simpa using hsp

theorem collapseF_chain : ∀ (fuel : Nat) (l : List Char), l.length ≤ fuel →
    List.Chain' (fun a b => isPySpace a = false ∨ isPySpace b = false)
      (collapseF fuel l) := by
  intro fuel
  induction fuel with
  | zero =>
    intro l hl
    have hnil : l = [] := List.length_eq_zero.mp (Nat.le_zero.mp hl)
    subst hnil
    rw [collapseF]
    exact List.chain'_nil
  | succ fuel ih =>
    intro l hl
    match l with
    | [] => rw [collapseF]; exact List.chain'_nil
    | c :: rest =>
      have hlen : rest.length ≤ fuel := by
        simp only [List.length_cons] at hl
        omega
      rw [collapseF]
      split
      · refine List.chain'_cons'.mpr ⟨?_, ?_⟩
        · intro y hy
          right
          refine collapseF_head_not_space fuel _ ?_ y hy
          exact fun d hd => dropWhile_head_not isPySpace rest d hd
        · exact ih _ (le_trans (length_dropWhile_le _ _) hlen)
      · next hsp =>
        refine List.chain'_cons'.mpr ⟨?_, ?_⟩
        · intro y hy
          left
          simpa using hsp
        · exact ih rest hlen

theorem pyStrip_concat (l : List Char) :
    pyStrip l ++ ((l.dropWhile isPySpace).reverse.takeWhile isPySpace).reverse
      = l.dropWhile isPySpace := by
  have h := List.takeWhile_append_dropWhile isPySpace (l.dropWhile isPySpace).reverse
  have h2 := congrArg List.reverse h
  rw [List.reverse_append, List.reverse_reverse] at h2
  exact h2

theorem pyStrip_chain {l : List Char}
    (h : List.Chain' (fun a b => isPySpace a = false ∨ isPySpace b = false) l) :
    List.Chain' (fun a b => isPySpace a = false ∨ isPySpace b = false) (pyStrip l) := by
  have h1 : List.Chain' (fun a b => isPySpace a = false ∨ isPySpace b = false)
      (l.dropWhile isPySpace) := by
    have hsplit := List.takeWhile_append_dropWhile isPySpace l
    rw [← hsplit] at h
    exact h.right_of_append
  rw [← pyStrip_concat l] at h1
  exact h1.left_of_append

theorem pyStrip_head_not_space (l : List Char) :
    ∀ c, (pyStrip l).head? = some c → isPySpace c = false := by
  intro c hc
  rcases hps : pyStrip l with _ | ⟨d, ds⟩
  · rw [hps] at hc
    simp at hc
  · rw [hps] at hc
    simp only [List.head?_cons, Option.some.injEq] at hc
    rw [← hc]
    have h := pyStrip_concat l
    rw [hps] at h
    refine dropWhile_head_not isPySpace l d ?_
    rw [← h]
    rfl

theorem pyStrip_getLast_not_space (l : List Char) :
    ∀ c, (pyStrip l).getLast? = some c → isPySpace c = false := by
  intro c hc
  unfold pyStrip at hc
  rw [List.getLast?_reverse] at hc
  exact dropWhile_head_not isPySpace _ c hc

/-- C7: for every input on which `preprocess_text` succeeds, the output never
contains two consecutive space characters, and never starts or ends with a
whitespace character. -/
theorem C7_whitespace_invariant (s t : String) (h : preprocess_text s = .ok t) :
    List.Chain' (fun a b => ¬(a = ' ' ∧ b = ' ')) t.data ∧
    (∀ c, t.data.head? = some c → isPySpace c = false) ∧
    (∀ c, t.data.getLast? = some c → isPySpace c = false) := by
  obtain ⟨u, _, ht⟩ := preprocess_text_eq_ok h
  rw [ht]
  have hchain := collapseF_chain (normalize_quotes u).length (normalize_quotes u)
    (Nat.le_refl _)
  refine ⟨?_, pyStrip_head_not_space _, pyStrip_getLast_not_space _⟩
  refine List.Chain'.imp ?_ (pyStrip_chain hchain)
  rintro a b hab ⟨rfl, rfl⟩
  rcases hab with hab | hab <;> simp [isPySpace] at hab

/-- Witness for C7: a concrete input with redundant whitespace. -/
theorem C7_whitespace_invariant_witness :
    preprocess_text " a  b " = .ok "a b" ∧
    (∀ c, ("a b" : String).data.head? = some c → isPySpace c = false) :=
  ⟨by decide, (C7_whitespace_invariant " a  b " "a b" (by decide)).2.1⟩

/-- C4 (counterexample): `preprocess_text` is not idempotent.  The
abbreviation pattern for "st" has no trailing word boundary, so the output
"street" of normalizing "st" is itself rewritten again. -/
theorem C4_counterexample :
    preprocess_text "st" = .ok "street" ∧
    preprocess_text "street" = .ok "streetreet" ∧
    ("streetreet" : String) ≠ "street" := by
  refine ⟨by decide, by decide, by decide⟩

/-- C4 (amended): idempotence holds on the normal-form subset: whenever
`preprocess_text` succeeds on `x` and its output `t` is a fixed point of
every pass (the spec's §8 normal form), re-running the pipeline returns `t`
unchanged, i.e. normalize(normalize(x)) = normalize(x) for such `x`.  In
general idempotence fails, see the counterexample. -/
theorem C4_amended_normalForm (x t : String) (hx : preprocess_text x = .ok t)
    (hNF : NormalForm t) : preprocess_text t = .ok t := by
  obtain ⟨hA, hE, hN, hC, hD, hW, hS⟩ := hNF
  have hA' : allAscii t.toList := hA
  have hE' : expand_abbreviations t.toList = t.toList := hE
  have hN' : normalize_numbers t.toList = t.toList := hN
  have hC' : normalize_currency t.toList = t.toList := hC
  have hD' : normalize_dates t.toList = .ok t.toList := hD
  have hW' : collapse_whitespace t.toList = t.toList := hW
  have hS' : pyStrip t.toList = t.toList := hS
  unfold preprocess_text
  rw [convert_to_ascii_of_ascii hA', hE', hN', hC']
  simp only [hD', normalize_quotes_of_ascii hA', hW', hS']
  rfl

/-- Witness for C4 (amended): a concrete normal-form string. -/
theorem C4_amended_normalForm_witness :
    NormalForm "hello world" ∧ preprocess_text "hello world" = .ok "hello world" :=
  ⟨by decide, C4_amended_normalForm "hello world" "hello world" (by decide) (by decide)⟩

/-! Section: Date-token facts (C10) -/

theorem digitChar_isDigit (k : Nat) : (digitChar k).isDigit = true := by
  unfold digitChar
  have h : k % 10 < 10 := Nat.mod_lt _ (by omega)
  generalize k % 10 = m at h ⊢
  interval_cases m <;> decide

theorem charDigitVal_digitChar (k : Nat) : charDigitVal (digitChar k) = k % 10 := by
  unfold digitChar
  have h : k % 10 < 10 := Nat.mod_lt _ (by omega)
  generalize k % 10 = m at h ⊢
  interval_cases m <;> decide

theorem subDatesF_nil (fuel : Nat) (b : Bool) : subDatesF fuel b [] = .ok [] := by
  cases fuel <;> rw [subDatesF]

theorem subDatesF_pos_match {fuel : Nat} (hf : 1 ≤ fuel) {c : Char}
    {rest rest' : List Char} {t8 : Char × Char × Char × Char × Char × Char × Char × Char}
    (h : dateHead (c :: rest) = some (t8, rest')) :
    subDatesF fuel true (c :: rest) =
      (replaceDate8 t8).bind
        (fun rep => (subDatesF (fuel - 1) false rest').map (fun t => rep ++ t)) := by
  obtain ⟨f, rfl⟩ : ∃ f, fuel = f + 1 := ⟨fuel - 1, by omega⟩
  simpa using subDatesF_cons_match h

theorem dateTok_explicit (m d y : Nat) :
    dateTok m d y = digitChar (m / 10 % 10) :: digitChar (m % 10) :: '/' ::
      digitChar (d / 10 % 10) :: digitChar (d % 10) :: '/' ::
      digitChar (y / 10 % 10) :: digitChar (y % 10) :: [] := by
  simp [dateTok, twoDigitChars]

theorem dateHead_dateTok (m d y : Nat) :
    dateHead (dateTok m d y) =
      some ((digitChar (m / 10 % 10), digitChar (m % 10), '/',
        digitChar (d / 10 % 10), digitChar (d % 10), '/',
        digitChar (y / 10 % 10), digitChar (y % 10)), []) := by
  rw [dateTok_explicit]
  rw [dateHead]
  simp [digitChar_isDigit, isDelim]

/-- C10: every valid two-digit month/day/year combination written as a
slash-delimited `MM/DD/YY` token is rewritten by the date pass to the full
month name, the day zero-padded to exactly two digits, and the four-digit
year produced by the fixed pivot: years 00-68 become 2000-2068 and years
69-99 become 1969-1999.  In particular `12/06/25` becomes
`December 06, 2025` and `12/06/99` becomes `December 06, 1999` through the
whole pipeline. -/
theorem C10_date_format_pivot (m d y : Nat) (hm1 : 1 ≤ m) (hm2 : m ≤ 12)
    (hd1 : 1 ≤ d) (hd2 : d ≤ daysInMonth m (pivotYear y)) (hy : y ≤ 99) :
    normalize_dates (dateTok m d y) =
      .ok (monthName m ++ ' ' :: (twoDigitChars d ++ ',' :: ' ' :: natChars (pivotYear y))) ∧
    (twoDigitChars d).length = 2 ∧
    (y ≤ 68 → pivotYear y = 2000 + y) ∧ (69 ≤ y → pivotYear y = 1900 + y) ∧
    preprocess_text "12/06/25" = .ok "December 06, 2025" ∧
    preprocess_text "12/06/99" = .ok "December 06, 1999" := by
  refine ⟨?_, rfl, fun h => by simp [pivotYear, h], fun h => by
    simp [pivotYear]
    omega, by decide, by decide⟩
  have hlen : (dateTok m d y).length = 8 := by
    simp [dateTok, twoDigitChars]
  rw [normalize_dates]
  rcases hsh : dateTok m d y with _ | ⟨c, rest⟩
  · exact absurd (hsh ▸ hlen) (by decide)
  · rw [← hsh, hlen]
    rw [hsh] at hlen ⊢
    rw [subDatesF_pos_match (by decide) (by rw [← hsh]; exact dateHead_dateTok m d y)]
    have hmv : 10 * charDigitVal (digitChar (m / 10 % 10)) + charDigitVal (digitChar (m % 10)) = m := by
      rw [charDigitVal_digitChar, charDigitVal_digitChar]
      omega
    have hdv : 10 * charDigitVal (digitChar (d / 10 % 10)) + charDigitVal (digitChar (d % 10)) = d := by
      have hdlt : d ≤ 31 := by
        refine le_trans hd2 ?_
        unfold daysInMonth
        split
        · split <;> omega
        · split <;> omega
      rw [charDigitVal_digitChar, charDigitVal_digitChar]
      omega
    have hyv : 10 * charDigitVal (digitChar (y / 10 % 10)) + charDigitVal (digitChar (y % 10)) = y := by
      rw [charDigitVal_digitChar, charDigitVal_digitChar]
      omega
    rw [replaceDate8, replaceDate]
    simp only [hmv, hdv, hyv]
    rw [if_pos ⟨trivial, trivial, hm1, hm2, hd1, hd2⟩]
    rw [Except.bind]
    simp only [subDatesF_nil, Except.map]
    simp [twoDigitChars]

/-- Witness for C10: the valid date December 6 of year 25. -/
theorem C10_date_format_pivot_witness :
    (1 ≤ 6 ∧ 6 ≤ daysInMonth 12 (pivotYear 25)) ∧
    normalize_dates (dateTok 12 6 25) =
      .ok (monthName 12 ++ ' ' :: (twoDigitChars 6 ++ ',' :: ' ' :: natChars (pivotYear 25))) :=
  ⟨⟨by decide, by decide⟩,
    (C10_date_format_pivot 12 6 25 (by decide) (by decide) (by decide) (by decide)
      (by decide)).1⟩

/-! Section: Claim theorems: C1, C2, C3, C5, C6 -/

/-- C1 (counterexample): the currency pass does not keep the `$` sign: the
replacement is capture group 1 (the number without the `$`), so normalizing
`$1,299.50` yields `1299.50` with no dollar sign in the output. -/
theorem C1_counterexample :
    preprocess_text "$1,299.50" = .ok "1299.50" ∧
    ¬ '$' ∈ ("1299.50" : String).data := by
  refine ⟨by decide, by decide⟩

/-- C1 (amended): the currency-normalization pass rewrites each matched
`$`-number substring by removing the thousands-separator commas and also
dropping the `$` sign: `$1,299.50` maps to `1299.50` and `$3,003` to `3003`,
both for the pass alone and through the whole pipeline. -/
theorem C1_amended_currency :
    normalize_currency "$1,299.50".toList = "1299.50".toList ∧
    normalize_currency "$3,003".toList = "3003".toList ∧
    preprocess_text "$1,299.50" = .ok "1299.50" ∧
    preprocess_text "$3,003" = .ok "3003" := by
  refine ⟨by decide, by decide, by decide, by decide⟩

/-- C2 (counterexample): the abbreviation pattern has no trailing word
boundary, so `st` occurring as a proper prefix of the larger token `street`
is replaced, producing `streetreet`. -/
theorem C2_counterexample :
    preprocess_text "street" = .ok "streetreet" ∧
    ("streetreet" : String) ≠ "street" := by
  refine ⟨by decide, by decide⟩

/-- C2 (amended): each abbreviation pattern is bounded on the left only: an
abbreviation at the start of a larger token is replaced (`cold` becomes
`companyld`), while an occurrence preceded by a word character (a proper
infix or suffix of a token, as `co` and `st` inside `accost`) is never
replaced; whole words are still replaced. -/
theorem C2_amended_leftBoundary :
    expand_abbreviations "cold".toList = "companyld".toList ∧
    expand_abbreviations "accost".toList = "accost".toList ∧
    expand_abbreviations "st co".toList = "street company".toList ∧
    preprocess_text "cold" = .ok "companyld" := by
  refine ⟨by decide, by decide, by decide, by decide⟩

/-- C3: evaluation at the failing input.  The token `12-06-25` matches the
date shape and is a valid calendar date (December 6), so by the claim the
call should succeed; the code instead raises, because `strptime`'s format
string accepts only slash delimiters.  A genuinely invalid slash date such
as `13/40/99` raises as the claim says, and an input whose only date-shaped
substring is a valid slash date succeeds. -/
theorem C3_code_bug_eval :
    preprocess_text "12-06-25" = .error ⟨"12-06-25".toList⟩ ∧
    (1 ≤ 6 ∧ 6 ≤ daysInMonth 12 (pivotYear 25)) ∧
    preprocess_text "13/40/99" = .error ⟨"13/40/99".toList⟩ ∧
    preprocess_text "on 12/06/25 we left" = .ok "on December 06, 2025 we left" := by
  refine ⟨by decide, ⟨by decide, by decide⟩, by decide, by decide⟩

/-- C5: evaluation at the failing input.  The dash-delimited token
`12-06-25` is matched by the date pattern but `strptime` with the
slash-only format rejects it, so the pass errors instead of rewriting it to
`December 06, 2025`; the slash form of the same date is rewritten. -/
theorem C5_code_bug_eval :
    normalize_dates "12-06-25".toList = .error ⟨"12-06-25".toList⟩ ∧
    normalize_dates "12/06/25".toList = .ok "December 06, 2025".toList ∧
    (1 ≤ 12 ∧ 12 ≤ 12 ∧ 1 ≤ 6 ∧ 6 ≤ daysInMonth 12 (pivotYear 25)) := by
  refine ⟨by decide, by decide, by decide, by decide, by decide⟩

/-- C6 (counterexample): the digit-grouping invariant fails for the whole
pipeline: the overlapping occurrences in `1,2,3` defeat the single
non-overlapping substitution pass, and the output `12,3` has a comma
directly between two digits. -/
theorem C6_counterexample :
    preprocess_text "1,2,3" = .ok "12,3" ∧
    hasDCD ("12,3" : String).data = true := by
  refine ⟨by decide, by decide⟩

/-- C6 (amended): whenever the input of the digit-grouping pass contains no
two overlapping digit-comma-digit occurrences, the output of the pass
contains no comma directly between two digits.  For inputs with overlapping
occurrences, and hence for the pipeline at large, the invariant fails, see
the counterexample. -/
theorem C6_amended_noOverlap (l : List Char) (h : hasDCDCD l = false) :
    hasDCD (normalize_numbers l) = false := normalize_numbers_noDCD l h

/-- Witness for C6 (amended): the spec's own grouped number. -/
theorem C6_amended_noOverlap_witness :
    hasDCDCD "3,475".toList = false ∧
    hasDCD (normalize_numbers "3,475".toList) = false :=
  ⟨by decide, C6_amended_noOverlap "3,475".toList (by decide)⟩

example : normalize_numbers "3,475".toList = "3475".toList := by decide
example : normalize_numbers "1,2,3".toList = "12,3".toList := by decide
example : normalize_currency "$1299.50".toList = "1299.50".toList := by decide
example : normalize_currency "$3003".toList = "3003".toList := by decide
example : expand_abbreviations "cold".toList = "companyld".toList := by decide
example : expand_abbreviations "street".toList = "streetreet".toList := by decide
example : expand_abbreviations "accost".toList = "accost".toList := by decide
example : normalize_dates "12/06/25".toList = .ok "December 06, 2025".toList := by decide
example : normalize_dates "12/06/99".toList = .ok "December 06, 1999".toList := by decide
example : normalize_dates "12-06-25".toList =
    .error ⟨"12-06-25".toList⟩ := by decide
example : preprocess_text "He said, “That’s $3,003, okay?”" =
    .ok "He said, \"That's 3003, okay?\"" := by decide
example : preprocess_text " a  b " = .ok "a b" := by decide
example : preprocess_text "13/40/99" = .error ⟨"13/40/99".toList⟩ := by decide

end TextPreprocessing
